import Mathlib

/-!
Verification development for the `text_pipeline` repository (`stapp.py`).

The pipeline extracts text from PDF documents, removes English stopwords,
produces an extractive summary (top-scored sentences by aggregate word
frequency), extracts the top-N most frequent alphabetic keywords, and stores
one record per document in a backing store, fanning out over the documents of
a folder while isolating per-document failures.

The embedding below models:
  * Python string helpers (`str.split`, `str.lower`, `str.isalpha`,
    `' '.join`, `str.endswith`) on ASCII text;
  * the NLTK collaborators `word_tokenize`, `sent_tokenize` and
    `stopwords.words of english` (word tokenization is modelled as: maximal
    alphanumeric runs are word tokens and every other non-space character is
    a single-character token; sentence tokenization splits after a
    `.`/`!`/`?` character that is followed by whitespace);
  * `collections.Counter` as an insertion-ordered association list, with
    `most_common` as a stable descending sort by count (CPython guarantees
    that elements with equal counts stay in first-encountered order);
  * Python `sorted(key=..., reverse=True)` as a stable descending insertion
    sort;
  * the effectful collaborators (`os.listdir`, `pdfplumber`, `pymongo`,
    the Streamlit diagnostic channel) through an explicit environment record
    and an event trace.
-/

namespace TextPipeline

/-- Model of Python whitespace (`str.split()` / `str.strip()` separators). -/
def pyIsSpace (c : Char) : Bool :=
  c == ' ' || c == '\t' || c == '\n' || c == '\r' || c == '\x0b' || c == '\x0c'

/-- The ASCII uppercase-to-lowercase letter table. -/
def upperLower : List (Char × Char) :=
  [('A', 'a'), ('B', 'b'), ('C', 'c'), ('D', 'd'), ('E', 'e'), ('F', 'f'),
   ('G', 'g'), ('H', 'h'), ('I', 'i'), ('J', 'j'), ('K', 'k'), ('L', 'l'),
   ('M', 'm'), ('N', 'n'), ('O', 'o'), ('P', 'p'), ('Q', 'q'), ('R', 'r'),
   ('S', 's'), ('T', 't'), ('U', 'u'), ('V', 'v'), ('W', 'w'), ('X', 'x'),
   ('Y', 'y'), ('Z', 'z')]

/-- ASCII model of Python `str.lower` at the character level: an uppercase
ASCII letter maps to its lowercase partner, every other character is kept. -/
def lowerChar (c : Char) : Char :=
  ((upperLower.find? (fun p => p.1 == c)).map Prod.snd).getD c

/-- A character that belongs to a word token of the `word_tokenize` model. -/
def isWordChar (c : Char) : Bool := c.isAlpha || c.isDigit

/-- Sentence-terminating punctuation for the `sent_tokenize` model. -/
def isSentEnd (c : Char) : Bool := c == '.' || c == '!' || c == '?'

/-- Worker of the `str.split()` model: splits on whitespace runs, producing
no empty tokens; `acc` holds the reversed current token. -/
def splitWsAux : List Char → List Char → List (List Char)
  | [], acc => if acc.isEmpty then [] else [acc.reverse]
  | c :: cs, acc =>
    if pyIsSpace c then
      if acc.isEmpty then splitWsAux cs [] else acc.reverse :: splitWsAux cs []
    else splitWsAux cs (c :: acc)

/-- Worker of the `' '.join` model on character lists. -/
def joinSp : List (List Char) → List Char
  | [] => []
  | [w] => w
  | w :: ws => w ++ ' ' :: joinSp ws

/-- Worker of the NLTK `word_tokenize` model: maximal alphanumeric runs are
word tokens, every other non-space character is its own token. -/
def wtAux : List Char → List Char → List (List Char)
  | [], acc => if acc.isEmpty then [] else [acc.reverse]
  | c :: cs, acc =>
    if isWordChar c then wtAux cs (c :: acc)
    else
      let rest := if pyIsSpace c then wtAux cs [] else [c] :: wtAux cs []
      if acc.isEmpty then rest else acc.reverse :: rest

/-- Worker of the NLTK `sent_tokenize` model: a sentence ends at a
`.`/`!`/`?` character followed by whitespace; the terminator stays with the
sentence and the separating whitespace is dropped. -/
def sentTokAux : List Char → List Char → List (List Char)
  | [], acc => if acc.isEmpty then [] else [acc.reverse]
  | c :: cs, acc =>
    if pyIsSpace c then
      match acc with
      | [] => sentTokAux cs []
      | p :: _ => if isSentEnd p then acc.reverse :: sentTokAux cs []
                  else sentTokAux cs (c :: acc)
    else sentTokAux cs (c :: acc)

/-- ASCII model of Python `str.lower`. -/
def lowerStr (s : String) : String := ⟨s.data.map lowerChar⟩

/-- Model of Python `str.split()` (no arguments: split on whitespace runs). -/
def pySplit (s : String) : List String := (splitWsAux s.data []).map String.mk

/-- Model of Python `' '.join`. -/
def joinSpace (l : List String) : String := ⟨joinSp (l.map String.data)⟩

/-- Model of NLTK `word_tokenize`. -/
def word_tokenize (s : String) : List String := (wtAux s.data []).map String.mk

/-- Model of NLTK `sent_tokenize`. -/
def sent_tokenize (s : String) : List String := (sentTokAux s.data []).map String.mk

/-- Model of Python `not text.strip()`: true iff the string is empty or
whitespace-only. -/
def isBlank (s : String) : Bool := s.data.all pyIsSpace

/-- Model of Python `str.isalpha`: nonempty and purely alphabetic. -/
def pyIsAlpha (s : String) : Bool := !s.data.isEmpty && s.data.all Char.isAlpha

/-- Model of Python `str.endswith`. -/
def pyEndsWith (s suffix : String) : Bool := suffix.data.isSuffixOf s.data

/-- The NLTK English stopword list (`stopwords.words of english`). -/
def stop_words : List String :=
  ["i", "me", "my", "myself", "we", "our", "ours", "ourselves", "you",
   "you\x27re", "you\x27ve", "you\x27ll", "you\x27d", "your", "yours",
   "yourself", "yourselves", "he", "him", "his", "himself", "she",
   "she\x27s", "her", "hers", "herself", "it", "it\x27s", "its", "itself",
   "they", "them", "their", "theirs", "themselves", "what", "which", "who",
   "whom", "this", "that", "that\x27ll", "these", "those", "am", "is",
   "are", "was", "were", "be", "been", "being", "have", "has", "had",
   "having", "do", "does", "did", "doing", "a", "an", "the", "and", "but",
   "if", "or", "because", "as", "until", "while", "of", "at", "by", "for",
   "with", "about", "against", "between", "into", "through", "during",
   "before", "after", "above", "below", "to", "from", "up", "down", "in",
   "out", "on", "off", "over", "under", "again", "further", "then", "once",
   "here", "there", "when", "where", "why", "how", "all", "any", "both",
   "each", "few", "more", "most", "other", "some", "such", "no", "nor",
   "not", "only", "own", "same", "so", "than", "too", "very", "s", "t",
   "can", "will", "just", "don", "don\x27t", "should", "should\x27ve",
   "now", "d", "ll", "m", "o", "re", "ve", "y", "ain", "aren",
   "aren\x27t", "couldn", "couldn\x27t", "didn", "didn\x27t", "doesn",
   "doesn\x27t", "hadn", "hadn\x27t", "hasn", "hasn\x27t", "haven",
   "haven\x27t", "isn", "isn\x27t", "ma", "mightn", "mightn\x27t",
   "mustn", "mustn\x27t", "needn", "needn\x27t", "shan", "shan\x27t",
   "shouldn", "shouldn\x27t", "wasn", "wasn\x27t", "weren", "weren\x27t",
   "won", "won\x27t", "wouldn", "wouldn\x27t"]

/-- One update step of the `collections.Counter` model: increment the count
of `w`, appending a fresh `(w, 1)` entry at the end on first encounter, so
the association list keeps insertion order like a Python dict. -/
def counterAdd (cnt : List (String × Nat)) (w : String) : List (String × Nat) :=
  match cnt with
  | [] => [(w, 1)]
  | (x, n) :: rest => if x = w then (x, n + 1) :: rest else (x, n) :: counterAdd rest w

/-- Model of `collections.Counter(words)`. -/
def counter (ws : List String) : List (String × Nat) := ws.foldl counterAdd []

/-- Model of `Counter.__getitem__`: the stored count, `0` for a missing key. -/
def counterGet : List (String × Nat) → String → Nat
  | [], _ => 0
  | (x, n) :: rest, w => if x = w then n else counterGet rest w

/-- Stable descending insertion for `sortByDesc`: `x` is placed before the
first element whose key is `≤ key x`, so earlier elements win ties. -/
def insertByDesc {α : Type} (key : α → Nat) (x : α) : List α → List α
  | [] => [x]
  | y :: ys => if key y ≤ key x then x :: y :: ys else y :: insertByDesc key x ys

/-- Model of Python `sorted(l, key=key, reverse=True)`: a stable sort by key
in descending order (the CPython sort is stable, also under `reverse=True`). -/
def sortByDesc {α : Type} (key : α → Nat) : List α → List α
  | [] => []
  | x :: xs => insertByDesc key x (sortByDesc key xs)

/-- Model of `Counter.most_common(n)`: entries sorted by count descending,
ties in first-encountered order, truncated to `n`. -/
def most_common (cnt : List (String × Nat)) (n : Nat) : List (String × Nat) :=
  (sortByDesc Prod.snd cnt).take n

/-- Function `remove_stopwords` (`stapp.py:46-50`): split the text on whitespace, drop
every token whose case-folded form is in the English stopword set, rejoin the
survivors with single spaces, preserving their casing and order. -/
def remove_stopwords (text : String) : String :=
  joinSpace ((pySplit text).filter (fun w => !(stop_words.contains (lowerStr w))))

/-- The whole-text word-frequency table built by `custom_summarization`
(`stapp.py:33-34`): `Counter(word_tokenize(text.lower()))`. -/
def textFreq (text : String) : List (String × Nat) :=
  counter (word_tokenize (lowerStr text))

/-- The sentence-scoring key of `custom_summarization` (`stapp.py:39`):
`sum(word_freq[word] for word in word_tokenize(sentence.lower()))`. -/
def sentenceScore (freq : List (String × Nat)) (sentence : String) : Nat :=
  ((word_tokenize (lowerStr sentence)).map (fun w => counterGet freq w)).sum

/-- The `ranked_sentences` local of `custom_summarization` (`stapp.py:37-41`):
the sentences of the text, stably sorted by score in descending order. -/
def rankedSentences (text : String) : List String :=
  sortByDesc (sentenceScore (textFreq text)) (sent_tokenize text)

/-- Function `custom_summarization` (`stapp.py:27-43`): empty output for blank input,
otherwise the top `num_sentences` ranked sentences joined with spaces. -/
def custom_summarization (text : String) (num_sentences : Nat) : String :=
  if isBlank text then "" else joinSpace ((rankedSentences text).take num_sentences)

/-- The token stream `extract_keywords` counts (`stapp.py:58-59`): the
stopword-filtered text, lowercased and word-tokenized.  The source inlines
the body of `remove_stopwords` verbatim
(`' '.join([word for word in text.split() if word.lower() not in stop_words])`),
so it is written here through `remove_stopwords`. -/
def keywordTokens (text : String) : List String :=
  word_tokenize (lowerStr (remove_stopwords text))

/-- The `word_freq` local of `extract_keywords` (`stapp.py:60`). -/
def keywordFreq (text : String) : List (String × Nat) :=
  counter (keywordTokens text)

/-- Function `extract_keywords` (`stapp.py:53-62`): empty for blank input, otherwise
the words of `most_common(top_n)` that are purely alphabetic. -/
def extract_keywords (text : String) (top_n : Nat) : List String :=
  if isBlank text then []
  else ((most_common (keywordFreq text) top_n).filter (fun p => pyIsAlpha p.1)).map Prod.fst

/-- The sentence-score formula as the spec words it: the sum, over the
case-folded words of the sentence, of the frequency of that word in the table, where a
word that is not a key of the table contributes `0`. -/
def specSentenceScore (freq : List (String × Nat)) (sentence : String) : Nat :=
  ((word_tokenize (lowerStr sentence)).map
    (fun w => if w ∈ freq.map Prod.fst then counterGet freq w else 0)).sum

/-- One persisted document record (`stapp.py:71`). -/
structure Record where
  pdf_name : String
  summary : String
  keywords : List String
deriving DecidableEq, Repr

/-- One line on the Streamlit diagnostic channel, abstracted from its message
formatting:
  * `processing name pages` — `st.write` at `stapp.py:99`;
  * `saved name` — `st.write` at `stapp.py:110`;
  * `procError name msg` — `st.error` at `stapp.py:113`;
  * `saveError msg` — `st.error` at `stapp.py:73`;
  * `noPdfWarning` — `st.warning` at `stapp.py:80`. -/
inductive Event where
  | processing (name : String) (pages : Nat)
  | saved (name : String)
  | procError (name : String) (msg : String)
  | saveError (msg : String)
  | noPdfWarning
deriving DecidableEq, Repr

/-- The external collaborators of the pipeline: the folder listing
(`os.listdir`), PDF text extraction (`extract_text_from_pdf`, which raises
on an unreadable document), and the whole MongoDB interaction of
the whole `try` block of `save_to_mongo` (client creation plus `insert_one`), whose
failure carries the exception message. -/
structure Env where
  listdir : String → List String
  extract : String → Except String (String × Nat)
  insert : String → String → Record → Except String Unit

/-- Model of `os.path.basename`. -/
def basename (path : String) : String :=
  ⟨(path.data.reverse.takeWhile (fun c => !(c == '/'))).reverse⟩

/-- Model of `os.path.splitext(name)[0]`: drop the part from the last dot on
(edge cases around leading dots are not modelled; the pipeline never depends
on them). -/
def splitextBase (name : String) : String :=
  if name.data.contains '.' then
    ⟨((name.data.reverse.dropWhile (fun c => !(c == '.'))).drop 1).reverse⟩
  else name

/-- Model of `os.path.join` on a folder and a child name. -/
def joinPath (a b : String) : String := a ++ "/" ++ b

/-- Function `save_to_mongo` (`stapp.py:65-73`): build the record from the basename
without extension, attempt the insert, and on ANY failure catch it and emit
`st.error` — the function itself always returns normally.  Result: the
records actually persisted and the diagnostic events emitted. -/
def save_to_mongo (env : Env) (pdf_path summary : String) (keywords : List String)
    (db_name collection_name : String) : List Record × List Event :=
  let r : Record := ⟨splitextBase (basename pdf_path), summary, keywords⟩
  match env.insert db_name collection_name r with
  | .ok _ => ([r], [])
  | .error e => ([], [.saveError ("Failed to save to MongoDB: " ++ e)])

/-- Function `process_single_pdf` (`stapp.py:95-113`): extract, filter, summarize,
extract keywords, persist, with every step inside one `try` whose handler
emits a per-document error.  In this pure model only extraction can fail
(`save_to_mongo` catches its own failures), so the handler fires exactly on
an extraction error. -/
def process_single_pdf (env : Env) (pdf_path db_name collection_name : String) :
    List Record × List Event :=
  match env.extract pdf_path with
  | .error e => ([], [.procError (basename pdf_path) e])
  | .ok (text, num_pages) =>
    let processed_text := remove_stopwords text
    let summary := custom_summarization processed_text 3
    let keywords := extract_keywords processed_text 5
    let saveRes := save_to_mongo env pdf_path summary keywords db_name collection_name
    (saveRes.1,
      .processing (basename pdf_path) num_pages :: saveRes.2 ++ [.saved (basename pdf_path)])

/-- The units of work `run_pipeline` submits to its worker pool
(`stapp.py:84-88`): one path per matched PDF file. -/
def dispatchedUnits (env : Env) (folder_path : String) : List String :=
  ((env.listdir folder_path).filter (fun f => pyEndsWith f ".pdf")).map (joinPath folder_path)

/-- Function `run_pipeline` (`stapp.py:75-92`): list the `.pdf` children, warn and
return if there are none, otherwise process every file and wait for all of
them.  The thread pool is modelled as a deterministic fan-out: tasks share no
state, and the claims below only concern the multiset of per-task outcomes,
so their results are concatenated in submission order. -/
def run_pipeline (env : Env) (folder_path db_name collection_name : String) :
    List Record × List Event :=
  let pdf_files := (env.listdir folder_path).filter (fun f => pyEndsWith f ".pdf")
  if pdf_files.isEmpty then ([], [.noPdfWarning])
  else
    ((pdf_files.map
        (fun f => process_single_pdf env (joinPath folder_path f) db_name collection_name)).foldr
      (fun r acc => (r.1 ++ acc.1, r.2 ++ acc.2)) ([], []))

/-- Recognizer for a per-document failure report on the diagnostic channel. -/
def isProcError : Event → Bool
  | .procError _ _ => true
  | _ => false

/-! ### Stable descending sort: permutation, sortedness, stability -/

theorem insertByDesc_perm {α : Type} (key : α → Nat) (x : α) (l : List α) :
    List.Perm (insertByDesc key x l) (x :: l) := by
  induction l with
  | nil => rfl
  | cons y ys ih =>
    by_cases h : key y ≤ key x
    · simp [insertByDesc, h]
    · simp only [insertByDesc, if_neg h]
      exact (ih.cons y).trans (List.Perm.swap x y ys)

theorem sortByDesc_perm {α : Type} (key : α → Nat) (l : List α) :
    List.Perm (sortByDesc key l) l := by
  induction l with
  | nil => rfl
  | cons x xs ih => exact (insertByDesc_perm key x (sortByDesc key xs)).trans (ih.cons x)

theorem pairwise_insertByDesc {α : Type} (key : α → Nat) (x : α) (l : List α)
    (h : l.Pairwise (fun a b => key b ≤ key a)) :
    (insertByDesc key x l).Pairwise (fun a b => key b ≤ key a) := by
  induction l with
  | nil => simp [insertByDesc]
  | cons y ys ih =>
    rcases List.pairwise_cons.mp h with ⟨hy, hys⟩
    by_cases hk : key y ≤ key x
    · simp only [insertByDesc, if_pos hk]
      refine List.pairwise_cons.mpr ⟨?_, h⟩
      intro z hz
      rcases List.mem_cons.mp hz with rfl | hz
      · exact hk
      · exact le_trans (hy z hz) hk
    · simp only [insertByDesc, if_neg hk]
      refine List.pairwise_cons.mpr ⟨?_, ih hys⟩
      intro z hz
      rcases List.mem_cons.mp ((insertByDesc_perm key x ys).mem_iff.mp hz) with rfl | hz2
      · exact Nat.le_of_lt (Nat.lt_of_not_le hk)
      · exact hy z hz2

theorem sortByDesc_pairwise {α : Type} (key : α → Nat) (l : List α) :
    (sortByDesc key l).Pairwise (fun a b => key b ≤ key a) := by
  induction l with
  | nil => simp [sortByDesc]
  | cons x xs ih => exact pairwise_insertByDesc key x (sortByDesc key xs) ih

theorem filter_insertByDesc_eq {α : Type} (key : α → Nat) (x : α) (l : List α) (c : Nat)
    (hc : key x = c) :
    (insertByDesc key x l).filter (fun z => key z == c) =
      x :: l.filter (fun z => key z == c) := by
  induction l with
  | nil => simp [insertByDesc, List.filter_cons, hc]
  | cons y ys ih =>
    by_cases hk : key y ≤ key x
    · simp only [insertByDesc, if_pos hk, List.filter_cons]
      simp [hc]
    · have hyc : ¬(key y = c) := by
        intro hyc
        exact hk (le_of_eq (hyc.trans hc.symm))
      simp only [insertByDesc, if_neg hk, List.filter_cons]
      simp [hyc, ih]

theorem filter_insertByDesc_ne {α : Type} (key : α → Nat) (x : α) (l : List α) (c : Nat)
    (hc : ¬(key x = c)) :
    (insertByDesc key x l).filter (fun z => key z == c) =
      l.filter (fun z => key z == c) := by
  induction l with
  | nil => simp [insertByDesc, List.filter_cons, hc]
  | cons y ys ih =>
    by_cases hk : key y ≤ key x
    · simp [insertByDesc, if_pos hk, List.filter_cons, hc]
    · simp [insertByDesc, if_neg hk, List.filter_cons, ih]

theorem filter_sortByDesc {α : Type} (key : α → Nat) (l : List α) (c : Nat) :
    (sortByDesc key l).filter (fun z => key z == c) = l.filter (fun z => key z == c) := by
  induction l with
  | nil => rfl
  | cons x xs ih =>
    by_cases hc : key x = c
    · simp only [sortByDesc, filter_insertByDesc_eq key x _ c hc, ih, List.filter_cons]
      simp [hc]
    · simp only [sortByDesc, filter_insertByDesc_ne key x _ c hc, ih, List.filter_cons]
      simp [hc]

/-! ### Counter lemmas -/

theorem counterGet_not_key (cnt : List (String × Nat)) (w : String)
    (h : ¬ w ∈ cnt.map Prod.fst) : counterGet cnt w = 0 := by
  induction cnt with
  | nil => rfl
  | cons p rest ih =>
    simp only [List.map_cons, List.mem_cons] at h
    push_neg at h
    cases p with
    | mk x n =>
      simp only [counterGet]
      rw [if_neg (fun hxw => h.1 hxw.symm)]
      exact ih h.2

/-! ### Claims about the scoring of the Summarizer (C2) -/

/-- Claim C2: in `custom_summarization`, the score of every sentence — the sorting
key applied to it — equals the formula of the spec: the sum, over the case-folded words of the
sentence, of the frequency of that word in the whole-text frequency
table, where a token that is not a key of the table contributes `0`. -/
theorem custom_summarization_score_spec (text sentence : String) :
    sentenceScore (textFreq text) sentence = specSentenceScore (textFreq text) sentence := by
  unfold sentenceScore specSentenceScore
  congr 1
  apply List.map_congr_left
  intro w _
  by_cases hk : w ∈ (textFreq text).map Prod.fst
  · rw [if_pos hk]
  · rw [if_neg hk, counterGet_not_key _ _ hk]

/-! ### Claims about the output of the Summarizer (C6, C7) -/

/-- Claim C6: `custom_summarization` returns `""` exactly on blank input;
otherwise it returns the top `k` ranked sentences joined with spaces, of
which there are at most `k`, each being verbatim one of the sentences of the
input text; and when `k` is at least the number of sentences, all sentences
are returned in ranked order (the ranking being a permutation of the
sentence list). -/
theorem custom_summarization_output_spec (t : String) (k : Nat) :
    (isBlank t = true → custom_summarization t k = "") ∧
    (isBlank t = false → custom_summarization t k = joinSpace ((rankedSentences t).take k)) ∧
    ((rankedSentences t).take k).length ≤ k ∧
    (∀ s ∈ (rankedSentences t).take k, s ∈ sent_tokenize t) ∧
    ((sent_tokenize t).length ≤ k →
      (rankedSentences t).take k = rankedSentences t ∧
      List.Perm (rankedSentences t) (sent_tokenize t)) := by
  have hperm : List.Perm (rankedSentences t) (sent_tokenize t) :=
    sortByDesc_perm (sentenceScore (textFreq t)) (sent_tokenize t)
  refine ⟨?_, ?_, ?_, ?_, ?_⟩
  · intro h; simp [custom_summarization, h]
  · intro h; simp [custom_summarization, h]
  · exact List.length_take_le k _
  · intro s hs
    exact hperm.mem_iff.mp ((List.take_sublist _ _).mem hs)
  · intro h
    refine ⟨List.take_of_length_le ?_, hperm⟩
    rw [hperm.length_eq]; exact h

/-- Witness for C6 at concrete input: a two-sentence text with `k = 5`
exercises the `k ≥ sentence count` edge case. -/
theorem custom_summarization_output_spec_witness :
    (sent_tokenize "Hi there. Bye.").length ≤ 5 ∧
      ((rankedSentences "Hi there. Bye.").take 5 = rankedSentences "Hi there. Bye." ∧
        List.Perm (rankedSentences "Hi there. Bye.") (sent_tokenize "Hi there. Bye.")) :=
  ⟨by decide, (custom_summarization_output_spec "Hi there. Bye." 5).2.2.2.2 (by decide)⟩

/-- Claim C7: the descending sort of `custom_summarization` is stable: for any
score value, the equally scored sentences appear in the ranked list in
exactly their original relative order from the input text. -/
theorem custom_summarization_stable_ties (t : String) (c : Nat) :
    (rankedSentences t).filter (fun s => sentenceScore (textFreq t) s == c) =
      (sent_tokenize t).filter (fun s => sentenceScore (textFreq t) s == c) :=
  filter_sortByDesc (sentenceScore (textFreq t)) (sent_tokenize t) c

/-! ### Whitespace split / join round trip -/

theorem splitWsAux_tokens (l : List Char) :
    ∀ acc, (∀ c ∈ acc, pyIsSpace c = false) →
      ∀ w ∈ splitWsAux l acc, w ≠ [] ∧ ∀ c ∈ w, pyIsSpace c = false := by
  induction l with
  | nil =>
    intro acc hacc w hw
    simp only [splitWsAux] at hw
    by_cases h : acc.isEmpty
    · simp [h] at hw
    · simp only [h, Bool.false_eq_true, if_false, List.mem_singleton] at hw
      subst hw
      refine ⟨fun hnil => ?_, fun c hc => hacc c (List.mem_reverse.mp hc)⟩
      rw [List.reverse_eq_nil_iff] at hnil
      simp [hnil] at h
  | cons c cs ih =>
    intro acc hacc w hw
    simp only [splitWsAux] at hw
    by_cases hs : pyIsSpace c
    · simp only [hs, if_true] at hw
      by_cases h : acc.isEmpty
      · simp only [h, if_true] at hw
        exact ih [] (by simp) w hw
      · simp only [h, Bool.false_eq_true, if_false, List.mem_cons] at hw
        rcases hw with rfl | hw
        · refine ⟨fun hnil => ?_, fun d hd => hacc d (List.mem_reverse.mp hd)⟩
          rw [List.reverse_eq_nil_iff] at hnil
          simp [hnil] at h
        · exact ih [] (by simp) w hw
    · simp only [hs, Bool.false_eq_true, if_false] at hw
      refine ih (c :: acc) ?_ w hw
      intro d hd
      rcases List.mem_cons.mp hd with rfl | hd
      · simpa using hs
      · exact hacc d hd

theorem splitWsAux_append_word (w : List Char) :
    ∀ (l acc : List Char), (∀ c ∈ w, pyIsSpace c = false) →
      splitWsAux (w ++ l) acc = splitWsAux l (w.reverse ++ acc) := by
  induction w with
  | nil => intro l acc _; simp
  | cons c cs ih =>
    intro l acc hw
    have hc : pyIsSpace c = false := hw c (List.mem_cons_self c cs)
    simp only [List.cons_append, splitWsAux, hc, Bool.false_eq_true, if_false, List.append_eq]
    rw [ih l (c :: acc) (fun d hd => hw d (List.mem_cons_of_mem c hd))]
    simp

theorem splitWs_joinSp :
    ∀ ws : List (List Char),
      (∀ w ∈ ws, w ≠ [] ∧ ∀ c ∈ w, pyIsSpace c = false) →
      splitWsAux (joinSp ws) [] = ws := by
  intro ws
  induction ws with
  | nil => intro _; rfl
  | cons w ws ih =>
    intro h
    rcases h w (List.mem_cons_self w ws) with ⟨hne, hw⟩
    have hrev : (w.reverse.isEmpty) = false := by
      cases hmt : w.reverse.isEmpty
      · rfl
      · rw [List.isEmpty_iff, List.reverse_eq_nil_iff] at hmt
        exact absurd hmt hne
    cases ws with
    | nil =>
      have h1 := splitWsAux_append_word w [] [] hw
      simp only [List.append_nil] at h1
      show splitWsAux (joinSp [w]) [] = [w]
      rw [show joinSp [w] = w from rfl, h1]
      simp [splitWsAux, hrev]
    | cons w' ws' =>
      show splitWsAux (w ++ ' ' :: joinSp (w' :: ws')) [] = w :: w' :: ws'
      rw [splitWsAux_append_word w _ [] hw]
      simp only [List.append_nil, splitWsAux, pyIsSpace]
      simp only [hrev, Bool.false_eq_true, if_false, List.reverse_reverse]
      rw [ih (fun u hu => h u (List.mem_cons_of_mem w hu))]
      simp [pyIsSpace]

theorem pySplit_tokens (s : String) :
    ∀ w ∈ pySplit s, w.data ≠ [] ∧ ∀ c ∈ w.data, pyIsSpace c = false := by
  intro w hw
  rcases List.mem_map.mp hw with ⟨u, hu, rfl⟩
  exact splitWsAux_tokens s.data [] (by simp) u hu

theorem pySplit_joinSpace (l : List String)
    (h : ∀ w ∈ l, w.data ≠ [] ∧ ∀ c ∈ w.data, pyIsSpace c = false) :
    pySplit (joinSpace l) = l := by
  unfold pySplit joinSpace
  have : splitWsAux (joinSp (l.map String.data)) [] = l.map String.data := by
    apply splitWs_joinSp
    intro w hw
    rcases List.mem_map.mp hw with ⟨u, hu, rfl⟩
    exact h u hu
  rw [this, List.map_map]
  have hid : ∀ a ∈ l, (String.mk ∘ String.data) a = id a := fun a _ => rfl
  rw [List.map_congr_left hid, List.map_id]

/-! ### C5: idempotence of the Stopword Filter -/

/-- Claim C5: `remove_stopwords` is idempotent. -/
theorem remove_stopwords_idempotent (t : String) :
    remove_stopwords (remove_stopwords t) = remove_stopwords t := by
  unfold remove_stopwords
  rw [pySplit_joinSpace]
  · rw [List.filter_filter]
    simp
  · intro w hw
    exact pySplit_tokens t w (List.mem_filter.mp hw).1

/-! ### Case-folding lemmas -/

theorem upperLower_snd_not_fst :
    ∀ q ∈ upperLower, ∀ p ∈ upperLower, (q.1 == p.2) = false := by decide

theorem upperLower_snd_wordChar : ∀ p ∈ upperLower, isWordChar p.2 = true := by decide

theorem upperLower_snd_alpha : ∀ p ∈ upperLower, Char.isAlpha p.2 = true := by decide

theorem lowerChar_eq_of_none (c : Char)
    (h : upperLower.find? (fun p => p.1 == c) = none) : lowerChar c = c := by
  simp [lowerChar, h]

theorem lowerChar_eq_of_some (c : Char) (p : Char × Char)
    (h : upperLower.find? (fun q => q.1 == c) = some p) : lowerChar c = p.2 := by
  simp [lowerChar, h]

theorem lowerChar_idem (c : Char) : lowerChar (lowerChar c) = lowerChar c := by
  cases hf : upperLower.find? (fun p => p.1 == c) with
  | none => rw [lowerChar_eq_of_none c hf]; exact lowerChar_eq_of_none c hf
  | some p =>
    have hp : p ∈ upperLower := List.mem_of_find?_eq_some hf
    rw [lowerChar_eq_of_some c p hf]
    have hnone : upperLower.find? (fun q => q.1 == p.2) = none := by
      rw [List.find?_eq_none]
      intro q hq
      simp [upperLower_snd_not_fst q hq p hp]
    rw [lowerChar_eq_of_none p.2 hnone]

theorem lowerChar_wordChar (c : Char) (h : isWordChar c = true) :
    isWordChar (lowerChar c) = true := by
  cases hf : upperLower.find? (fun p => p.1 == c) with
  | none => rw [lowerChar_eq_of_none c hf]; exact h
  | some p =>
    rw [lowerChar_eq_of_some c p hf]
    exact upperLower_snd_wordChar p (List.mem_of_find?_eq_some hf)

theorem lowerChar_isAlpha (c : Char) (h : Char.isAlpha c = true) :
    Char.isAlpha (lowerChar c) = true := by
  cases hf : upperLower.find? (fun p => p.1 == c) with
  | none => rw [lowerChar_eq_of_none c hf]; exact h
  | some p =>
    rw [lowerChar_eq_of_some c p hf]
    exact upperLower_snd_alpha p (List.mem_of_find?_eq_some hf)

theorem lowerChar_space : lowerChar ' ' = ' ' := by decide

theorem lowerStr_idem (s : String) : lowerStr (lowerStr s) = lowerStr s := by
  show String.mk (List.map lowerChar (List.map lowerChar s.data)) =
    String.mk (List.map lowerChar s.data)
  rw [List.map_map]
  exact congrArg String.mk
    (List.map_congr_left (fun c _ => lowerChar_idem c))

/-! ### Counter structure lemmas -/

theorem counterAdd_keys (cnt : List (String × Nat)) (w : String) :
    (counterAdd cnt w).map Prod.fst =
      if w ∈ cnt.map Prod.fst then cnt.map Prod.fst else cnt.map Prod.fst ++ [w] := by
  induction cnt with
  | nil => simp [counterAdd]
  | cons p rest ih =>
    cases p with
    | mk x n =>
      by_cases hxw : x = w
      · subst hxw
        simp [counterAdd]
      · have hne : ¬ (w = x) := fun h => hxw h.symm
        simp only [counterAdd, if_neg hxw, List.map_cons, ih, List.mem_cons]
        by_cases hw : w ∈ rest.map Prod.fst
        · simp [hw, hne]
        · simp [hw, hne]

theorem counterAdd_nodupKeys (cnt : List (String × Nat)) (w : String)
    (h : (cnt.map Prod.fst).Nodup) : ((counterAdd cnt w).map Prod.fst).Nodup := by
  rw [counterAdd_keys]
  by_cases hw : w ∈ cnt.map Prod.fst
  · simpa [hw] using h
  · simp only [hw, if_false]
    rw [List.nodup_append]
    exact ⟨h, List.nodup_singleton w, by simpa using hw⟩

theorem foldl_counterAdd_nodupKeys (ws : List String) :
    ∀ cnt : List (String × Nat), (cnt.map Prod.fst).Nodup →
      ((ws.foldl counterAdd cnt).map Prod.fst).Nodup := by
  induction ws with
  | nil => intro cnt h; exact h
  | cons w ws ih => intro cnt h; exact ih _ (counterAdd_nodupKeys cnt w h)

theorem counter_nodupKeys (ws : List String) : ((counter ws).map Prod.fst).Nodup :=
  foldl_counterAdd_nodupKeys ws [] (by simp)

theorem counterGet_mem (cnt : List (String × Nat)) (p : String × Nat)
    (hnd : (cnt.map Prod.fst).Nodup) (hp : p ∈ cnt) : counterGet cnt p.1 = p.2 := by
  induction cnt with
  | nil => cases hp
  | cons q rest ih =>
    cases q with
    | mk x n =>
      simp only [List.map_cons, List.nodup_cons] at hnd
      rcases List.mem_cons.mp hp with rfl | hp'
      · simp [counterGet]
      · have hx : ¬ x = p.1 := by
          intro hx
          exact hnd.1 (hx ▸ List.mem_map_of_mem Prod.fst hp')
        simp only [counterGet, if_neg hx]
        exact ih hnd.2 hp'

theorem foldl_counterAdd_keys_subset (ws : List String) :
    ∀ (cnt : List (String × Nat)) (k : String),
      k ∈ (ws.foldl counterAdd cnt).map Prod.fst → k ∈ cnt.map Prod.fst ∨ k ∈ ws := by
  induction ws with
  | nil => intro cnt k h; exact Or.inl h
  | cons w ws ih =>
    intro cnt k h
    rcases ih (counterAdd cnt w) k h with h' | h'
    · rw [counterAdd_keys] at h'
      by_cases hw : w ∈ cnt.map Prod.fst
      · rw [if_pos hw] at h'
        exact Or.inl h'
      · rw [if_neg hw] at h'
        rcases List.mem_append.mp h' with h'' | h''
        · exact Or.inl h''
        · simp only [List.mem_singleton] at h''
          exact Or.inr (h'' ▸ List.mem_cons_self w ws)
    · exact Or.inr (List.mem_cons_of_mem w h')

theorem mem_counter_key (ws : List String) (p : String × Nat) (hp : p ∈ counter ws) :
    p.1 ∈ ws := by
  have := foldl_counterAdd_keys_subset ws [] p.1 (List.mem_map_of_mem Prod.fst hp)
  simpa using this

/-! ### Word-tokenizer lemmas -/

theorem wtAux_chars (l : List Char) :
    ∀ acc, ∀ w ∈ wtAux l acc, ∀ c ∈ w, c ∈ l ∨ c ∈ acc := by
  induction l with
  | nil =>
    intro acc w hw c hc
    simp only [wtAux] at hw
    by_cases h : acc.isEmpty
    · simp [h] at hw
    · simp only [h, Bool.false_eq_true, if_false, List.mem_singleton] at hw
      subst hw
      exact Or.inr (List.mem_reverse.mp hc)
  | cons d ds ih =>
    intro acc w hw c hc
    simp only [wtAux] at hw
    by_cases hW : isWordChar d
    · simp only [hW, if_true] at hw
      rcases ih (d :: acc) w hw c hc with h | h
      · exact Or.inl (List.mem_cons_of_mem d h)
      · rcases List.mem_cons.mp h with rfl | h'
        · exact Or.inl (List.mem_cons_self c ds)
        · exact Or.inr h'
    · simp only [hW, Bool.false_eq_true, if_false] at hw
      have hrest : ∀ u, u ∈ (if pyIsSpace d then wtAux ds [] else [d] :: wtAux ds []) →
          ∀ e ∈ u, e ∈ d :: ds := by
        intro u hu e he
        by_cases hs : pyIsSpace d
        · rw [if_pos hs] at hu
          rcases ih [] u hu e he with h | h
          · exact List.mem_cons_of_mem d h
          · cases h
        · rw [if_neg hs] at hu
          rcases List.mem_cons.mp hu with rfl | hu'
          · simp only [List.mem_singleton] at he
            exact he ▸ List.mem_cons_self d ds
          · rcases ih [] u hu' e he with h | h
            · exact List.mem_cons_of_mem d h
            · cases h
      by_cases ha : acc.isEmpty
      · simp only [ha, if_true] at hw
        exact Or.inl (hrest w hw c hc)
      · simp only [ha, Bool.false_eq_true, if_false] at hw
        rcases List.mem_cons.mp hw with rfl | hw'
        · exact Or.inr (List.mem_reverse.mp hc)
        · exact Or.inl (hrest w hw' c hc)

theorem wtAux_append_word (w : List Char) :
    ∀ (l acc : List Char), (∀ c ∈ w, isWordChar c = true) →
      wtAux (w ++ l) acc = wtAux l (w.reverse ++ acc) := by
  induction w with
  | nil => intro l acc _; simp
  | cons c cs ih =>
    intro l acc hw
    have hc : isWordChar c = true := hw c (List.mem_cons_self c cs)
    simp only [List.cons_append, wtAux, hc, if_true, List.append_eq]
    rw [ih l (c :: acc) (fun d hd => hw d (List.mem_cons_of_mem c hd))]
    simp

theorem wtAux_joinSp :
    ∀ ws : List (List Char),
      (∀ w ∈ ws, w ≠ [] ∧ ∀ c ∈ w, isWordChar c = true) →
      wtAux (joinSp ws) [] = ws := by
  intro ws
  induction ws with
  | nil => intro _; rfl
  | cons w ws ih =>
    intro h
    rcases h w (List.mem_cons_self w ws) with ⟨hne, hw⟩
    have hrev : (w.reverse.isEmpty) = false := by
      cases hmt : w.reverse.isEmpty
      · rfl
      · rw [List.isEmpty_iff, List.reverse_eq_nil_iff] at hmt
        exact absurd hmt hne
    cases ws with
    | nil =>
      have h1 := wtAux_append_word w [] [] hw
      simp only [List.append_nil] at h1
      show wtAux (joinSp [w]) [] = [w]
      rw [show joinSp [w] = w from rfl, h1]
      simp [wtAux, hrev]
    | cons w' ws' =>
      show wtAux (w ++ ' ' :: joinSp (w' :: ws')) [] = w :: w' :: ws'
      rw [wtAux_append_word w _ [] hw]
      simp only [List.append_nil, wtAux]
      have hsp : isWordChar ' ' = false := by decide
      have hsp2 : pyIsSpace ' ' = true := by decide
      simp only [hsp, Bool.false_eq_true, if_false, hsp2, if_true, hrev,
        List.reverse_reverse]
      rw [ih (fun u hu => h u (List.mem_cons_of_mem w hu))]

theorem map_lowerChar_joinSp :
    ∀ ws : List (List Char),
      (joinSp ws).map lowerChar = joinSp (ws.map (List.map lowerChar)) := by
  intro ws
  induction ws with
  | nil => rfl
  | cons w ws ih =>
    cases ws with
    | nil => rfl
    | cons w' ws' =>
      show (w ++ ' ' :: joinSp (w' :: ws')).map lowerChar =
        w.map lowerChar ++ ' ' :: joinSp ((w' :: ws').map (List.map lowerChar))
      rw [List.map_append, List.map_cons, lowerChar_space, ih]

/-- Tokenizing the lowercased space-join of nonempty all-word-character
tokens returns exactly their lowercased forms. -/
theorem word_tokenize_lower_joinSpace (l : List String)
    (h : ∀ w ∈ l, w.data ≠ [] ∧ ∀ c ∈ w.data, isWordChar c = true) :
    word_tokenize (lowerStr (joinSpace l)) = l.map lowerStr := by
  show (wtAux ((joinSp (l.map String.data)).map lowerChar) []).map String.mk = l.map lowerStr
  rw [map_lowerChar_joinSp, List.map_map]
  rw [wtAux_joinSp (l.map (List.map lowerChar ∘ String.data))]
  · rw [List.map_map]
    rfl
  · intro u hu
    rcases List.mem_map.mp hu with ⟨w, hw, rfl⟩
    rcases h w hw with ⟨hne, hwc⟩
    refine ⟨fun hnil => hne (by simpa using hnil), ?_⟩
    intro c hc
    rcases List.mem_map.mp hc with ⟨d, hd, rfl⟩
    exact lowerChar_wordChar d (hwc d hd)

/-- Every token produced by word-tokenizing an already lowercased string is
fixed by case folding. -/
theorem word_tokenize_lowerStr_fixed (x : String) :
    ∀ w ∈ word_tokenize (lowerStr x), lowerStr w = w := by
  intro w hw
  rcases List.mem_map.mp hw with ⟨u, hu, rfl⟩
  have hchars : ∀ c ∈ u, lowerChar c = c := by
    intro c hc
    have hmem : c ∈ (lowerStr x).data := by
      rcases wtAux_chars (lowerStr x).data [] u hu c hc with h | h
      · exact h
      · cases h
    rcases List.mem_map.mp hmem with ⟨d, _, rfl⟩
    exact lowerChar_idem d
  show String.mk ((String.mk u).data.map lowerChar) = String.mk u
  exact congrArg String.mk (by rw [List.map_congr_left hchars]; simp)

/-- Decomposition of `extract_keywords` membership: every returned keyword is
the key of an entry of the frequency table of the extractor and is purely
alphabetic. -/
theorem mem_extract_keywords (t : String) (n : Nat) (w : String)
    (hw : w ∈ extract_keywords t n) :
    ∃ p ∈ keywordFreq t, p.1 = w ∧ pyIsAlpha w = true := by
  unfold extract_keywords at hw
  split at hw
  · cases hw
  · rcases List.mem_map.mp hw with ⟨p, hp, rfl⟩
    have hpf := List.mem_filter.mp hp
    have hmem : p ∈ sortByDesc Prod.snd (keywordFreq t) :=
      (List.take_sublist _ _).mem hpf.1
    exact ⟨p, (sortByDesc_perm _ _).mem_iff.mp hmem, rfl, by simpa using hpf.2⟩

/-! ### C9: keywords are returned case-folded -/

/-- Claim C9: every token returned by `extract_keywords` equals its own
case-folded form — keywords are always lowercase, whatever the casing of the
input text. -/
theorem extract_keywords_lowercase (t : String) (n : Nat) (w : String)
    (hw : w ∈ extract_keywords t n) : lowerStr w = w := by
  rcases mem_extract_keywords t n w hw with ⟨p, hp, rfl, _⟩
  exact word_tokenize_lowerStr_fixed (remove_stopwords t) p.1 (mem_counter_key _ p hp)

/-- Witness for C9: on a mixed-case input the keyword `"cats"` is returned
already lowercased. -/
theorem extract_keywords_lowercase_witness :
    "cats" ∈ extract_keywords "Cats Cats dog" 5 ∧ lowerStr "cats" = "cats" :=
  ⟨by decide, extract_keywords_lowercase "Cats Cats dog" 5 "cats" (by decide)⟩

/-! ### C1: the output of the Keyword Extractor -/

/-- Claim C1 counterexample: on `"dog dog the. the the the"` the claim fails in
two ways.  The whitespace token `"the."` survives the stopword filter (its
case-folded form `"the."` is not in the stopword set), and word tokenization
then splits the trailing period off, so the stopword `"the"` is returned as a
keyword; moreover the output is ordered by the filtered-text frequencies
(`dog ↦ 2`, then `the ↦ 1`), not by the frequencies in `t`
(`dog ↦ 2`, `the ↦ 4`), so it is not in non-increasing order of frequency in
`t`. -/
theorem extract_keywords_claim_counterexample :
    extract_keywords "dog dog the. the the the" 5 = ["dog", "the"] ∧
    stop_words.contains (lowerStr "the") = true ∧
    counterGet (textFreq "dog dog the. the the the") "dog" = 2 ∧
    counterGet (textFreq "dog dog the. the the the") "the" = 4 := by decide

/-- Claim C1 as amended: `extract_keywords t n` returns at most `n` tokens, all
purely alphabetic, in non-increasing order of their frequency in the
own frequency table of the extractor (built over the stopword-filtered,
case-folded text); and whenever every whitespace token of `t` is purely
alphabetic, no returned token has its case-folded form in the stopword set (in
general a stopword embedded in a punctuation-bearing token can leak into the
output, as the counterexample shows). -/
theorem extract_keywords_spec (t : String) (n : Nat) :
    (extract_keywords t n).length ≤ n ∧
    (∀ w ∈ extract_keywords t n, pyIsAlpha w = true) ∧
    (extract_keywords t n).Pairwise
      (fun a b => counterGet (keywordFreq t) b ≤ counterGet (keywordFreq t) a) ∧
    ((∀ w ∈ pySplit t, pyIsAlpha w = true) →
      ∀ w ∈ extract_keywords t n, stop_words.contains (lowerStr w) = false) := by
  refine ⟨?_, ?_, ?_, ?_⟩
  · unfold extract_keywords
    split
    · simp
    · rw [List.length_map]
      exact le_trans (List.length_filter_le _ _) (List.length_take_le _ _)
  · intro w hw
    rcases mem_extract_keywords t n w hw with ⟨_, _, _, halpha⟩
    exact halpha
  · have hnd : ((keywordFreq t).map Prod.fst).Nodup := counter_nodupKeys (keywordTokens t)
    unfold extract_keywords
    split
    · simp
    · apply List.pairwise_map.mpr
      have hsorted : (sortByDesc Prod.snd (keywordFreq t)).Pairwise
          (fun p q => Prod.snd q ≤ Prod.snd p) := sortByDesc_pairwise Prod.snd _
      have htake := List.Pairwise.sublist (List.take_sublist n _) hsorted
      have hfil := List.Pairwise.sublist
        (@List.filter_sublist _ (fun p => pyIsAlpha p.1) (List.take n (sortByDesc Prod.snd (keywordFreq t)))) htake
      refine List.Pairwise.imp_of_mem ?_ hfil
      intro p q hp hq hle
      have hpc : p ∈ keywordFreq t :=
        (sortByDesc_perm _ _).mem_iff.mp ((List.take_sublist _ _).mem ((List.filter_sublist _).mem hp))
      have hqc : q ∈ keywordFreq t :=
        (sortByDesc_perm _ _).mem_iff.mp ((List.take_sublist _ _).mem ((List.filter_sublist _).mem hq))
      rw [counterGet_mem _ p hnd hpc, counterGet_mem _ q hnd hqc]
      exact hle
  · intro halpha w hw
    rcases mem_extract_keywords t n w hw with ⟨p, hp, rfl, _⟩
    have hkey : p.1 ∈ keywordTokens t := mem_counter_key _ p hp
    have hfl : ∀ u ∈ (pySplit t).filter (fun v => !(stop_words.contains (lowerStr v))),
        u.data ≠ [] ∧ ∀ c ∈ u.data, isWordChar c = true := by
      intro u hu
      have halphau := halpha u (List.mem_filter.mp hu).1
      unfold pyIsAlpha at halphau
      rw [Bool.and_eq_true] at halphau
      refine ⟨fun hnil => by simp [hnil] at halphau, ?_⟩
      intro c hc
      have := (List.all_eq_true.mp halphau.2) c hc
      simp [isWordChar, this]
    have htok : keywordTokens t =
        ((pySplit t).filter (fun v => !(stop_words.contains (lowerStr v)))).map lowerStr :=
      word_tokenize_lower_joinSpace _ hfl
    rw [htok] at hkey
    rcases List.mem_map.mp hkey with ⟨u, hu, hpu⟩
    have hus := (List.mem_filter.mp hu).2
    rw [← hpu, lowerStr_idem u]
    simpa using hus

/-- Witness for the amended C1 at a concrete input whose whitespace tokens
are all alphabetic: no returned keyword case-folds into the stopword set. -/
theorem extract_keywords_spec_witness :
    (∀ w ∈ pySplit "Cats cats dog", pyIsAlpha w = true) ∧
      ∀ w ∈ extract_keywords "Cats cats dog" 2,
        stop_words.contains (lowerStr w) = false :=
  ⟨by decide, (extract_keywords_spec "Cats cats dog" 2).2.2.2 (by decide)⟩

/-! ### C10: the Result Sink swallows persistence failures -/

/-- Claim C10: `save_to_mongo` returns normally for every environment and
input — it is a total function into results, so no exception ever reaches
its caller — and when the persistence client fails with any error, the
failure surfaces only as a diagnostic `saveError` event: no record is
persisted and the returned value is exactly the error report. -/
theorem save_to_mongo_swallows (env : Env) (pdf_path summary : String)
    (keywords : List String) (db coll e : String)
    (h : env.insert db coll ⟨splitextBase (basename pdf_path), summary, keywords⟩ = .error e) :
    save_to_mongo env pdf_path summary keywords db coll =
      ([], [.saveError ("Failed to save to MongoDB: " ++ e)]) := by
  simp [save_to_mongo, h]

/-- Witness for C10: a store that always rejects makes `save_to_mongo`
return the lone diagnostic event and no record. -/
theorem save_to_mongo_swallows_witness :
    (Env.insert ⟨fun _ => [], fun _ => .ok ("", 0), fun _ _ _ => .error "down"⟩
        "db" "c" ⟨splitextBase (basename "doc.pdf"), "s", []⟩ = .error "down") ∧
    save_to_mongo ⟨fun _ => [], fun _ => .ok ("", 0), fun _ _ _ => .error "down"⟩
        "doc.pdf" "s" [] "db" "c" =
      ([], [.saveError ("Failed to save to MongoDB: " ++ "down")]) :=
  ⟨rfl, save_to_mongo_swallows ⟨fun _ => [], fun _ => .ok ("", 0), fun _ _ _ => .error "down"⟩
    "doc.pdf" "s" [] "db" "c" "down" rfl⟩

/-! ### C3: Completed versus Persist -/

/-- Claim C3 counterexample: with extraction succeeding but the store rejecting
the write, the unit of work still emits its `saved` notification — the task
reaches `Completed` right after the swallowed persistence failure, and no
record is persisted.  This refutes the claim that `Completed` is reachable
only after a successful Persist and that a rejected write makes the store
step fail. -/
theorem completed_despite_persist_failure :
    process_single_pdf ⟨fun _ => [], fun _ => .ok ("", 0), fun _ _ _ => .error "refused"⟩
        "doc.pdf" "db" "c" =
      ([], [.processing "doc.pdf" 0,
            .saveError ("Failed to save to MongoDB: " ++ "refused"),
            .saved "doc.pdf"]) := by decide

/-- Claim C3 as amended: the `saved` notification (the `Completed` outcome)
is emitted exactly when extraction succeeds, regardless of the Persist
outcome.  When extraction succeeds and the write is rejected,
`save_to_mongo` never fails its caller: the failure is reported on the
diagnostic channel and leaves no record, but does not keep the task from
reaching `Completed`.  Conversely, when extraction fails, the unit produces
only the per-document failure report and never reaches `saved`. -/
theorem completed_iff_extraction (env : Env) (pdf_path db coll : String) :
    (Event.saved (basename pdf_path) ∈ (process_single_pdf env pdf_path db coll).2 ↔
      ∃ text pages, env.extract pdf_path = .ok (text, pages)) ∧
    (∀ text : String, ∀ pages : Nat, env.extract pdf_path = .ok (text, pages) →
      ∀ e, env.insert db coll
          ⟨splitextBase (basename pdf_path),
            custom_summarization (remove_stopwords text) 3,
            extract_keywords (remove_stopwords text) 5⟩ = .error e →
        (process_single_pdf env pdf_path db coll).1 = [] ∧
        Event.saveError ("Failed to save to MongoDB: " ++ e) ∈
          (process_single_pdf env pdf_path db coll).2) ∧
    (∀ e, env.extract pdf_path = .error e →
      process_single_pdf env pdf_path db coll = ([], [.procError (basename pdf_path) e])) := by
  refine ⟨?_, ?_, ?_⟩
  · cases hex : env.extract pdf_path with
    | ok tp =>
      cases tp with
      | mk text pages =>
        constructor
        · intro _
          exact ⟨text, pages, rfl⟩
        · intro _
          simp [process_single_pdf, hex]
    | error e =>
      constructor
      · intro hmem
        simp [process_single_pdf, hex] at hmem
      · rintro ⟨text, pages, hok⟩
        cases hok
  · intro text pages hex e he
    simp [process_single_pdf, hex, save_to_mongo, he]
  · intro e hex
    simp [process_single_pdf, hex]

/-- Witness for the amended C3, exercising the only-when direction: a failed
extraction yields only the per-document failure report, so the `saved`
notification is never reached. -/
theorem completed_iff_extraction_witness :
    (Env.extract ⟨fun _ => [],
        fun p => if p = "a.pdf" then .ok ("hello", 2) else .error "corrupt",
        fun _ _ _ => .ok ()⟩ "b.pdf" = .error "corrupt") ∧
    process_single_pdf ⟨fun _ => [],
        fun p => if p = "a.pdf" then .ok ("hello", 2) else .error "corrupt",
        fun _ _ _ => .ok ()⟩ "b.pdf" "db" "c" =
      ([], [.procError (basename "b.pdf") "corrupt"]) :=
  ⟨rfl,
    (completed_iff_extraction ⟨fun _ => [],
        fun p => if p = "a.pdf" then .ok ("hello", 2) else .error "corrupt",
        fun _ _ _ => .ok ()⟩ "b.pdf" "db" "c").2.2 "corrupt" rfl⟩

/-! ### C4: batch isolation -/

/-- Claim C4: for a folder whose matched documents are `[A, B, C]` where
extracting `B` fails and the store accepts all writes, the batch still
persists exactly the records of `A` and `C` (in that order), reports exactly
one per-document failure, namely that of `B`, and both siblings still reach
their `saved` notifications: the failure of `B` neither cancels nor affects
them. -/
theorem run_pipeline_isolates_failures (env : Env) (fp db coll a b c ta tc eb : String)
    (pa pc : Nat)
    (hlist : (env.listdir fp).filter (fun f => pyEndsWith f ".pdf") = [a, b, c])
    (hea : env.extract (joinPath fp a) = .ok (ta, pa))
    (heb : env.extract (joinPath fp b) = .error eb)
    (hec : env.extract (joinPath fp c) = .ok (tc, pc))
    (hins : ∀ d col r, env.insert d col r = .ok ()) :
    ((run_pipeline env fp db coll).1).map Record.pdf_name =
      [splitextBase (basename (joinPath fp a)), splitextBase (basename (joinPath fp c))] ∧
    (run_pipeline env fp db coll).2.filter isProcError =
      [.procError (basename (joinPath fp b)) eb] ∧
    Event.saved (basename (joinPath fp a)) ∈ (run_pipeline env fp db coll).2 ∧
    Event.saved (basename (joinPath fp c)) ∈ (run_pipeline env fp db coll).2 := by
  have h1 : process_single_pdf env (joinPath fp a) db coll =
      ([⟨splitextBase (basename (joinPath fp a)),
          custom_summarization (remove_stopwords ta) 3,
          extract_keywords (remove_stopwords ta) 5⟩],
        [.processing (basename (joinPath fp a)) pa, .saved (basename (joinPath fp a))]) := by
    simp [process_single_pdf, hea, save_to_mongo, hins]
  have h2 : process_single_pdf env (joinPath fp b) db coll =
      ([], [.procError (basename (joinPath fp b)) eb]) := by
    simp [process_single_pdf, heb]
  have h3 : process_single_pdf env (joinPath fp c) db coll =
      ([⟨splitextBase (basename (joinPath fp c)),
          custom_summarization (remove_stopwords tc) 3,
          extract_keywords (remove_stopwords tc) 5⟩],
        [.processing (basename (joinPath fp c)) pc, .saved (basename (joinPath fp c))]) := by
    simp [process_single_pdf, hec, save_to_mongo, hins]
  unfold run_pipeline
  rw [hlist]
  simp [h1, h2, h3, isProcError, List.filter_cons]

/-- Witness for C4: three concrete documents where only the middle one fails
to extract; exactly its failure is reported. -/
theorem run_pipeline_isolates_failures_witness :
    (Env.extract ⟨fun _ => ["a.pdf", "b.pdf", "c.pdf"],
        fun p => if p = "f/b.pdf" then .error "boom" else .ok ("", 0),
        fun _ _ _ => .ok ()⟩ (joinPath "f" "b.pdf") = .error "boom") ∧
    (run_pipeline ⟨fun _ => ["a.pdf", "b.pdf", "c.pdf"],
        fun p => if p = "f/b.pdf" then .error "boom" else .ok ("", 0),
        fun _ _ _ => .ok ()⟩ "f" "db" "c").2.filter isProcError =
      [.procError (basename (joinPath "f" "b.pdf")) "boom"] :=
  ⟨rfl,
    (run_pipeline_isolates_failures
      ⟨fun _ => ["a.pdf", "b.pdf", "c.pdf"],
        fun p => if p = "f/b.pdf" then .error "boom" else .ok ("", 0),
        fun _ _ _ => .ok ()⟩
      "f" "db" "c" "a.pdf" "b.pdf" "c.pdf" "" "" "boom" 0 0
      (by decide) rfl rfl rfl (fun _ _ _ => rfl)).2.1⟩

/-! ### C8: empty folder -/

/-- Claim C8: when the folder listing contains no name with the `.pdf`
extension, `run_pipeline` completes normally with zero persisted records,
emits exactly the one "no PDF files" warning (and nothing else, so no
error), and dispatches no units of work.  (A missing folder is rejected by
the front end before `run_pipeline` is invoked, so the model takes the
listing as given.) -/
theorem run_pipeline_empty_folder (env : Env) (fp db coll : String)
    (h : (env.listdir fp).filter (fun f => pyEndsWith f ".pdf") = []) :
    run_pipeline env fp db coll = ([], [.noPdfWarning]) ∧
    dispatchedUnits env fp = [] := by
  constructor
  · unfold run_pipeline
    rw [h]
    rfl
  · unfold dispatchedUnits
    rw [h]
    rfl

/-- Witness for C8: a folder with only non-PDF children yields exactly the
warning. -/
theorem run_pipeline_empty_folder_witness :
    ((["notes.txt", "img.png"] : List String).filter (fun f => pyEndsWith f ".pdf") = []) ∧
    run_pipeline ⟨fun _ => ["notes.txt", "img.png"], fun _ => .ok ("", 0), fun _ _ _ => .ok ()⟩
      "f" "db" "c" = ([], [.noPdfWarning]) :=
  ⟨by decide,
    (run_pipeline_empty_folder
      ⟨fun _ => ["notes.txt", "img.png"], fun _ => .ok ("", 0), fun _ _ _ => .ok ()⟩
      "f" "db" "c" (by decide)).1⟩

end TextPipeline
